import Mathlib

/-!
Verification of the expense-tracker core (src/expenses.rs, src/operation.rs).

Model of `f64` amounts: NaN, -infinity, finite values (as rationals,
abstracting rounding), +infinity.  `pcmp` models Rust's
`f64::partial_cmp`: `none` exactly when one side is NaN, otherwise the
total order -inf < finite < +inf.  Addition follows IEEE 754: NaN is
absorbing, `+inf + -inf = NaN`, and a finite sum whose magnitude leaves
the finite `f64` range overflows to the infinity of its sign; rounding
of in-range sums is abstracted (finite in-range sums are exact), so
theorems about finite sums are stated on integer amounts small enough
that `f64` addition is exact on them.
-/

inductive F : Type where
  | nan : F
  | neginf : F
  | num : ℚ → F
  | posinf : F
  deriving DecidableEq, Repr

/-- Three-way comparison on rationals, as `Ord` for `f64` finite values. -/
def qcmp (a b : ℚ) : Ordering :=
  if a < b then Ordering.lt else if b < a then Ordering.gt else Ordering.eq

/-- Model of `f64::partial_cmp`: `none` iff either operand is NaN. -/
def pcmp : F → F → Option Ordering
  | F.nan, _ => none
  | _, F.nan => none
  | F.neginf, F.neginf => some Ordering.eq
  | F.neginf, _ => some Ordering.lt
  | _, F.neginf => some Ordering.gt
  | F.posinf, F.posinf => some Ordering.eq
  | _, F.posinf => some Ordering.lt
  | F.posinf, _ => some Ordering.gt
  | F.num a, F.num b => some (qcmp a b)

/-- Model of IEEE `<` on `f64` (false whenever a NaN is involved). -/
def flt (a b : F) : Prop := pcmp a b = some Ordering.lt

/-- Model of IEEE `<=` on `f64` (false whenever a NaN is involved). -/
def fle (a b : F) : Prop :=
  pcmp a b = some Ordering.lt ∨ pcmp a b = some Ordering.eq

/-- Model of IEEE `>=` on `f64`, as a boolean (false whenever a NaN is involved). -/
def fge (a b : F) : Bool :=
  match pcmp a b with
  | some Ordering.gt => true
  | some Ordering.eq => true
  | _ => false

instance (a b : F) : Decidable (flt a b) := by unfold flt; infer_instance

instance (a b : F) : Decidable (fle a b) := by unfold fle; infer_instance

/-- The largest finite `f64` value, `(2^53 - 1) * 2^971`, as a rational. -/
def MAXF : ℚ := (2 ^ 53 - 1) * 2 ^ 971

/-- Model of `f64` addition: NaN absorbs, opposite infinities give NaN,
and a finite sum saturates to the infinity of its sign when its
magnitude leaves the finite `f64` range; in-range finite sums are kept
exact (rounding abstracted). -/
def F.add : F → F → F
  | F.nan, _ => F.nan
  | _, F.nan => F.nan
  | F.neginf, F.posinf => F.nan
  | F.posinf, F.neginf => F.nan
  | F.neginf, _ => F.neginf
  | _, F.neginf => F.neginf
  | F.posinf, _ => F.posinf
  | _, F.posinf => F.posinf
  | F.num a, F.num b =>
      if MAXF < a + b then F.posinf
      else if a + b < -MAXF then F.neginf
      else F.num (a + b)

/-- The rational carried by a finite model value (0 for NaN and the
infinities); used to state what the exact sum of the amounts is. -/
def toQ : F → ℚ
  | F.num q => q
  | _ => 0

/-- `struct Expense` from src/expenses.rs: amount, category, date. -/
structure Expense : Type where
  amount : F
  category : String
  date : String
  deriving DecidableEq, Repr

/-- `Expense::new`: stores the three arguments verbatim. -/
def Expense.new (amount : F) (category : String) (date : String) : Expense :=
  ⟨amount, category, date⟩

/-- `add_expense`: constructs an `Expense` and pushes it on the vector. -/
def add_expense (expenses : List Expense) (amount : F)
    (category : String) (date : String) : List Expense :=
  expenses ++ [Expense.new amount category date]

/-- `view_expenses_by_date`: filter by exact date equality. -/
def view_expenses_by_date (expenses : List Expense) (date : String) : List Expense :=
  expenses.filter (fun e => e.date = date)

/-- `calculate_total`: `iter().map(|e| e.amount).sum()` — a left fold of
`+` starting from `0.0`. -/
def calculate_total (expenses : List Expense) : F :=
  (expenses.map Expense.amount).foldl F.add (F.num 0)

/-- `get_by_category`: filter by exact category equality. -/
def get_by_category (expenses : List Expense) (category : String) : List Expense :=
  expenses.filter (fun e => e.category = category)

/-- `count_by_category`: `filter(..).count()`. -/
def count_by_category (expenses : List Expense) (category : String) : Nat :=
  (expenses.filter (fun e => e.category = category)).length

/-- The comparator closure of `find_max`/`find_min`:
`a.amount.partial_cmp(&b.amount).unwrap_or(Ordering::Equal)`. -/
def fcmp (a b : Expense) : Ordering :=
  (pcmp a.amount b.amount).getD Ordering.eq

/-- One step of `Iterator::max_by` (`cmp::max_by`): keep the accumulator
only when it compares strictly greater, so ties go to the second
(later) argument. -/
def maxStep (acc x : Expense) : Expense :=
  if fcmp acc x = Ordering.gt then acc else x

/-- One step of `Iterator::min_by` (`cmp::min_by`): keep the accumulator
unless it compares strictly greater, so ties go to the first
(earlier) argument. -/
def minStep (acc x : Expense) : Expense :=
  if fcmp acc x = Ordering.gt then x else acc

/-- `find_max`: `iter().max_by(..)` — `None` on empty, else the reduce of
`maxStep` seeded with the first element. -/
def find_max : List Expense → Option Expense
  | [] => none
  | e :: es => some (es.foldl maxStep e)

/-- `find_min`: `iter().min_by(..)` — `None` on empty, else the reduce of
`minStep` seeded with the first element. -/
def find_min : List Expense → Option Expense
  | [] => none
  | e :: es => some (es.foldl minStep e)

/-- `total_by_category`: filter by category, map to amounts, sum. -/
def total_by_category (expenses : List Expense) (category : String) : F :=
  ((expenses.filter (fun e => e.category = category)).map Expense.amount).foldl
    F.add (F.num 0)

/-- Chaining `add_expense` over a list of (amount, category, date)
arguments, starting from the empty collection. -/
def addAll (args : List (F × String × String)) : List Expense :=
  args.foldl (fun es t => add_expense es t.1 t.2.1 t.2.2) []

/-! ### Order lemmas for the `f64` model -/

lemma qcmp_eq_lt {a b : ℚ} : qcmp a b = Ordering.lt ↔ a < b := by
  unfold qcmp
  rcases lt_trichotomy a b with h | h | h
  · simp [h]
  · subst h; simp
  · simp [h, not_lt.mpr h.le]

lemma qcmp_eq_gt {a b : ℚ} : qcmp a b = Ordering.gt ↔ b < a := by
  unfold qcmp
  rcases lt_trichotomy a b with h | h | h
  · simp [h, not_lt.mpr h.le]
  · subst h; simp
  · simp [h, not_lt.mpr h.le]

lemma qcmp_eq_eq {a b : ℚ} : qcmp a b = Ordering.eq ↔ a = b := by
  unfold qcmp
  rcases lt_trichotomy a b with h | h | h
  · simp [h, h.ne]
  · subst h; simp
  · simp [h, not_lt.mpr h.le, h.ne']

/-- Valuation of non-NaN model values into the extended rationals. -/
def fval : F → WithBot (WithTop ℚ)
  | F.nan => ⊥
  | F.neginf => ⊥
  | F.num q => ((q : WithTop ℚ) : WithBot (WithTop ℚ))
  | F.posinf => ((⊤ : WithTop ℚ) : WithBot (WithTop ℚ))

lemma flt_ne_nan {a b : F} (h : flt a b) : a ≠ F.nan ∧ b ≠ F.nan := by
  cases a <;> cases b <;> simp_all [flt, pcmp]

lemma fle_ne_nan {a b : F} (h : fle a b) : a ≠ F.nan ∧ b ≠ F.nan := by
  cases a <;> cases b <;> simp_all [fle, pcmp]

lemma flt_iff {a b : F} (ha : a ≠ F.nan) (hb : b ≠ F.nan) :
    flt a b ↔ fval a < fval b := by
  cases a <;> cases b <;>
    simp_all [flt, pcmp, fval, qcmp_eq_lt, WithBot.bot_lt_coe, WithTop.coe_lt_top,
      WithBot.coe_lt_coe, WithTop.coe_lt_coe] <;>
    exact WithBot.coe_lt_coe.mpr (WithTop.coe_lt_top _)

lemma fle_iff {a b : F} (ha : a ≠ F.nan) (hb : b ≠ F.nan) :
    fle a b ↔ fval a ≤ fval b := by
  cases a <;> cases b <;>
    simp_all [fle, pcmp, fval, qcmp_eq_lt, qcmp_eq_eq, bot_le,
      WithBot.coe_le_coe, WithTop.coe_le_coe, le_iff_lt_or_eq,
      WithBot.bot_lt_coe, WithTop.coe_lt_top, WithBot.coe_lt_coe,
      WithTop.coe_lt_coe] <;>
    first
      | exact WithBot.coe_lt_coe.mpr (WithTop.coe_lt_top _)
      | exact le_top

lemma pcmp_gt_iff {a b : F} : pcmp a b = some Ordering.gt ↔ flt b a := by
  cases a <;> cases b <;> simp_all [flt, pcmp, qcmp_eq_lt, qcmp_eq_gt]

lemma fcmp_eq_gt {a b : Expense} : fcmp a b = Ordering.gt ↔ flt b.amount a.amount := by
  unfold fcmp
  rw [← pcmp_gt_iff]
  cases h : pcmp a.amount b.amount <;> simp [Option.getD]

lemma fle_of_not_gt {a b : F} (ha : a ≠ F.nan) (hb : b ≠ F.nan)
    (h : ¬ flt b a) : fle a b := by
  rw [fle_iff ha hb]
  rw [flt_iff hb ha] at h
  exact le_of_not_lt h

lemma fle_trans {a b c : F} (h1 : fle a b) (h2 : fle b c) : fle a c := by
  obtain ⟨ha, hb⟩ := fle_ne_nan h1
  obtain ⟨_, hc⟩ := fle_ne_nan h2
  rw [fle_iff ha hc]
  exact le_trans ((fle_iff ha hb).mp h1) ((fle_iff hb hc).mp h2)

lemma flt_of_flt_of_fle {a b c : F} (h1 : flt a b) (h2 : fle b c) : flt a c := by
  obtain ⟨ha, hb⟩ := flt_ne_nan h1
  obtain ⟨_, hc⟩ := fle_ne_nan h2
  rw [flt_iff ha hc]
  exact lt_of_lt_of_le ((flt_iff ha hb).mp h1) ((fle_iff hb hc).mp h2)

lemma flt_of_fle_of_flt {a b c : F} (h1 : fle a b) (h2 : flt b c) : flt a c := by
  obtain ⟨ha, hb⟩ := fle_ne_nan h1
  obtain ⟨_, hc⟩ := flt_ne_nan h2
  rw [flt_iff ha hc]
  exact lt_of_le_of_lt ((fle_iff ha hb).mp h1) ((flt_iff hb hc).mp h2)

lemma fle_of_flt {a b : F} (h : flt a b) : fle a b := Or.inl h

lemma fle_refl {a : F} (ha : a ≠ F.nan) : fle a a := by
  rw [fle_iff ha ha]

lemma flt_trans {a b c : F} (h1 : flt a b) (h2 : flt b c) : flt a c :=
  flt_of_fle_of_flt (fle_of_flt h1) h2

/-- All amounts in the collection are orderable (no NaN). -/
def NoNan (l : List Expense) : Prop := ∀ x ∈ l, x.amount ≠ F.nan

instance (l : List Expense) : Decidable (NoNan l) := by
  unfold NoNan; infer_instance

/-- Invariant of the `max_by` reduction: the result is an upper bound of
the accumulator and all list elements, and it is either the untouched
accumulator (then everything in the list is strictly below it) or occurs
in the list with everything after it strictly below it. -/
lemma foldl_maxStep_spec (l : List Expense) :
    ∀ acc : Expense, acc.amount ≠ F.nan → NoNan l →
      (l.foldl maxStep acc).amount ≠ F.nan ∧
      fle acc.amount (l.foldl maxStep acc).amount ∧
      (∀ x ∈ l, fle x.amount (l.foldl maxStep acc).amount) ∧
      ((l.foldl maxStep acc = acc ∧ ∀ x ∈ l, flt x.amount acc.amount) ∨
        ∃ l₁ l₂, l = l₁ ++ (l.foldl maxStep acc) :: l₂ ∧
          ∀ x ∈ l₂, flt x.amount (l.foldl maxStep acc).amount) := by
  induction l with
  | nil =>
      intro acc hacc _
      exact ⟨hacc, fle_refl hacc, by simp, Or.inl ⟨rfl, by simp⟩⟩
  | cons x l ih =>
      intro acc hacc hno
      have hx : x.amount ≠ F.nan := hno x (List.mem_cons_self x l)
      have hl : NoNan l := fun y hy => hno y (List.mem_cons_of_mem x hy)
      by_cases hgt : fcmp acc x = Ordering.gt
      · have hxa : flt x.amount acc.amount := fcmp_eq_gt.mp hgt
        have hstep : maxStep acc x = acc := by simp [maxStep, hgt]
        simp only [List.foldl_cons, hstep]
        obtain ⟨h1, h2, h3, h4⟩ := ih acc hacc hl
        refine ⟨h1, h2, ?_, ?_⟩
        · intro y hy
          rcases List.mem_cons.mp hy with rfl | hy
          · exact fle_of_flt (flt_of_flt_of_fle hxa h2)
          · exact h3 y hy
        · rcases h4 with ⟨heq, hall⟩ | ⟨l₁, l₂, hdec, hl₂⟩
          · refine Or.inl ⟨heq, ?_⟩
            intro y hy
            rcases List.mem_cons.mp hy with rfl | hy
            · exact hxa
            · exact hall y hy
          · exact Or.inr ⟨x :: l₁, l₂, by rw [List.cons_append, ← hdec], hl₂⟩
      · have hax : fle acc.amount x.amount :=
          fle_of_not_gt hacc hx (fun h => hgt (fcmp_eq_gt.mpr h))
        have hstep : maxStep acc x = x := by simp [maxStep, hgt]
        simp only [List.foldl_cons, hstep]
        obtain ⟨h1, h2, h3, h4⟩ := ih x hx hl
        refine ⟨h1, fle_trans hax h2, ?_, ?_⟩
        · intro y hy
          rcases List.mem_cons.mp hy with rfl | hy
          · exact h2
          · exact h3 y hy
        · rcases h4 with ⟨heq, hall⟩ | ⟨l₁, l₂, hdec, hl₂⟩
          · refine Or.inr ⟨[], l, ?_, ?_⟩
            · rw [heq, List.nil_append]
            · intro y hy; rw [heq]; exact hall y hy
          · exact Or.inr ⟨x :: l₁, l₂, by rw [List.cons_append, ← hdec], hl₂⟩

/-- Invariant of the `min_by` reduction: the result is a lower bound of
the accumulator and all list elements, and it is either the untouched
accumulator or occurs in the list strictly below the accumulator and
everything before it. -/
lemma foldl_minStep_spec (l : List Expense) :
    ∀ acc : Expense, acc.amount ≠ F.nan → NoNan l →
      (l.foldl minStep acc).amount ≠ F.nan ∧
      fle (l.foldl minStep acc).amount acc.amount ∧
      (∀ x ∈ l, fle (l.foldl minStep acc).amount x.amount) ∧
      (l.foldl minStep acc = acc ∨
        ∃ l₁ l₂, l = l₁ ++ (l.foldl minStep acc) :: l₂ ∧
          flt (l.foldl minStep acc).amount acc.amount ∧
          ∀ x ∈ l₁, flt (l.foldl minStep acc).amount x.amount) := by
  induction l with
  | nil =>
      intro acc hacc _
      exact ⟨hacc, fle_refl hacc, by simp, Or.inl rfl⟩
  | cons x l ih =>
      intro acc hacc hno
      have hx : x.amount ≠ F.nan := hno x (List.mem_cons_self x l)
      have hl : NoNan l := fun y hy => hno y (List.mem_cons_of_mem x hy)
      by_cases hgt : fcmp acc x = Ordering.gt
      · have hxa : flt x.amount acc.amount := fcmp_eq_gt.mp hgt
        have hstep : minStep acc x = x := by simp [minStep, hgt]
        simp only [List.foldl_cons, hstep]
        obtain ⟨h1, h2, h3, h4⟩ := ih x hx hl
        refine ⟨h1, fle_of_flt (flt_of_fle_of_flt h2 hxa), ?_, ?_⟩
        · intro y hy
          rcases List.mem_cons.mp hy with rfl | hy
          · exact h2
          · exact h3 y hy
        · rcases h4 with heq | ⟨l₁, l₂, hdec, hrx, hl₁⟩
          · refine Or.inr ⟨[], l, ?_, ?_, ?_⟩
            · rw [heq, List.nil_append]
            · rw [heq]; exact hxa
            · intro y hy; exact absurd hy (List.not_mem_nil y)
          · refine Or.inr ⟨x :: l₁, l₂, by rw [List.cons_append, ← hdec], flt_trans hrx hxa, ?_⟩
            intro y hy
            rcases List.mem_cons.mp hy with rfl | hy
            · exact hrx
            · exact hl₁ y hy
      · have hax : fle acc.amount x.amount :=
          fle_of_not_gt hacc hx (fun h => hgt (fcmp_eq_gt.mpr h))
        have hstep : minStep acc x = acc := by simp [minStep, hgt]
        simp only [List.foldl_cons, hstep]
        obtain ⟨h1, h2, h3, h4⟩ := ih acc hacc hl
        refine ⟨h1, h2, ?_, ?_⟩
        · intro y hy
          rcases List.mem_cons.mp hy with rfl | hy
          · exact fle_trans h2 hax
          · exact h3 y hy
        · rcases h4 with heq | ⟨l₁, l₂, hdec, hracc, hl₁⟩
          · exact Or.inl heq
          · refine Or.inr ⟨x :: l₁, l₂, by rw [List.cons_append, ← hdec], hracc, ?_⟩
            intro y hy
            rcases List.mem_cons.mp hy with rfl | hy
            · exact flt_of_flt_of_fle hracc hax
            · exact hl₁ y hy

/-! ### Exactness of the sum fold when no partial sum can overflow -/

/-- When every element is a finite value of magnitude at most `2 ^ 32`
and the accumulator leaves enough room for every remaining element, the
saturating fold of `F.add` never overflows and computes the exact
rational sum. -/
lemma foldl_add_exact (l : List F) :
    ∀ s : ℚ, (∀ x ∈ l, ∃ q : ℚ, x = F.num q ∧ |q| ≤ 2 ^ 32) →
      |s| + 2 ^ 32 * l.length ≤ MAXF →
      l.foldl F.add (F.num s) = F.num (s + (l.map toQ).sum) := by
  induction l with
  | nil =>
      intro s _ _
      simp [toQ]
  | cons x l ih =>
      intro s hq hbound
      obtain ⟨q, rfl, hq32⟩ := hq x (List.mem_cons_self x l)
      have hlen0 : (0 : ℚ) ≤ 2 ^ 32 * l.length := by positivity
      have hbound2 : |s| + 2 ^ 32 * l.length + 2 ^ 32 ≤ MAXF := by
        have := hbound
        simp only [List.length_cons] at this
        push_cast at this
        linarith
      have habs : |s + q| ≤ |s| + 2 ^ 32 := le_trans (abs_add s q) (by linarith)
      have h1 : s + q ≤ MAXF := le_trans (le_abs_self _) (by linarith)
      have h2 : -MAXF ≤ s + q := by
        have := neg_abs_le (s + q)
        linarith
      have hadd : F.add (F.num s) (F.num q) = F.num (s + q) := by
        simp only [F.add]
        rw [if_neg (not_lt.mpr h1), if_neg (not_lt.mpr h2)]
      rw [List.foldl_cons, hadd,
        ih (s + q) (fun y hy => hq y (List.mem_cons_of_mem _ hy)) (by linarith)]
      simp only [List.map_cons, List.sum_cons, toQ]
      ring_nf

/-! ### Fixture expenses for concrete checks -/

def exA : Expense := ⟨F.num 5, "food", "2026-01-08"⟩

def exB : Expense := ⟨F.num 5, "rent", "2026-01-08"⟩

def exC : Expense := ⟨F.num 3, "food", "2026-01-07"⟩

def exNan : Expense := ⟨F.nan, "nan", "2026-01-09"⟩

def exInf : Expense := ⟨F.posinf, "inf", "2026-01-09"⟩

def exOne : Expense := ⟨F.num 1, "one", "2026-01-09"⟩

def exD : Expense := ⟨F.num 3, "transport", "2026-01-06"⟩

def exBig : Expense := ⟨F.num (2 ^ 1023), "big1", "2026-01-10"⟩

def exBig2 : Expense := ⟨F.num (2 ^ 1023), "big2", "2026-01-10"⟩

def exNegBig : Expense := ⟨F.num (-(2 ^ 1023)), "neg", "2026-01-10"⟩

/-! ### Claim theorems -/

/-- C1 counterexample: in `[exA, exB]` both expenses share the greatest
amount, yet `find_max` returns the second (latest-inserted) one, not the
earliest-inserted one. -/
theorem C1_counterexample :
    exA.amount = exB.amount ∧ find_max [exA, exB] = some exB ∧ exB ≠ exA := by
  decide

/-- C1 (amended): on a non-empty collection of orderable (non-NaN) amounts,
`find_max` returns an expense `r` whose amount bounds every amount from
above and such that every expense inserted after `r` has a strictly
smaller amount: among equal maxima the latest-inserted one wins. -/
theorem C1_find_max_tie_last (es : List Expense) (hne : es ≠ []) (hno : NoNan es) :
    ∃ r l₁ l₂, find_max es = some r ∧ es = l₁ ++ r :: l₂ ∧
      (∀ x ∈ es, fle x.amount r.amount) ∧ ∀ x ∈ l₂, flt x.amount r.amount := by
  match es, hne with
  | e :: es', _ =>
    have he : e.amount ≠ F.nan := hno e (List.mem_cons_self e es')
    have hes' : NoNan es' := fun y hy => hno y (List.mem_cons_of_mem e hy)
    obtain ⟨h1, h2, h3, h4⟩ := foldl_maxStep_spec es' e he hes'
    refine ⟨es'.foldl maxStep e, ?_⟩
    rcases h4 with ⟨heq, hall⟩ | ⟨l₁, l₂, hdec, hl₂⟩
    · refine ⟨[], es', rfl, by rw [heq, List.nil_append], ?_, ?_⟩
      · intro y hy
        rcases List.mem_cons.mp hy with rfl | hy
        · rw [heq]; exact fle_refl he
        · rw [heq]; exact fle_of_flt (hall y hy)
      · intro y hy
        rw [heq]; exact hall y hy
    · refine ⟨e :: l₁, l₂, rfl, by rw [List.cons_append, ← hdec], ?_, hl₂⟩
      intro y hy
      rcases List.mem_cons.mp hy with rfl | hy
      · exact h2
      · exact h3 y hy

/-- C1 witness: the amended statement evaluated on the concrete tied
collection `[exA, exB, exC]`. -/
theorem C1_find_max_tie_last_witness :
    ∃ r l₁ l₂, find_max [exA, exB, exC] = some r ∧ [exA, exB, exC] = l₁ ++ r :: l₂ ∧
      (∀ x ∈ [exA, exB, exC], fle x.amount r.amount) ∧
      ∀ x ∈ l₂, flt x.amount r.amount :=
  C1_find_max_tie_last [exA, exB, exC] (by simp) (by decide)

/-- C2 counterexample: the two collections are permutations of each
other, yet `calculate_total` overflows to `+inf` on one insertion order
(`2^1023 + 2^1023` leaves the finite `f64` range) and returns the finite
`2^1023` on the other, where the opposite-sign amounts cancel first.
Every `f64` addition involved is exact or overflows, so the trace is
faithful to the program bit for bit. -/
theorem C2_counterexample :
    ([exBig, exBig2, exNegBig] : List Expense).Perm [exBig, exNegBig, exBig2] ∧
    calculate_total [exBig, exBig2, exNegBig] = F.posinf ∧
    calculate_total [exBig, exNegBig, exBig2] = F.num (2 ^ 1023) := by
  refine ⟨List.Perm.cons exBig (List.Perm.swap exNegBig exBig2 []), ?_, ?_⟩
  · show calculate_total [exBig, exBig2, exNegBig] = F.posinf
    simp only [calculate_total, List.map_cons, List.map_nil, List.foldl_cons,
      List.foldl_nil, exBig, exBig2, exNegBig]
    norm_num [F.add, MAXF]
  · show calculate_total [exBig, exNegBig, exBig2] = F.num (2 ^ 1023)
    simp only [calculate_total, List.map_cons, List.map_nil, List.foldl_cons,
      List.foldl_nil, exBig, exBig2, exNegBig]
    norm_num [F.add, MAXF]

/-- C2 (amended): `calculate_total` equals the arithmetic sum of the
`amount` fields and is invariant under permutation of the collection
whenever all amounts are integers of magnitude at most `2^32` and the
collection has at most `2^21` elements — bounds under which every
intermediate `f64` sum is exactly representable, so neither rounding
nor overflow can occur in the program. -/
theorem C2_total_sum_perm (es es' : List Expense) (h : es.Perm es')
    (hint : ∀ e ∈ es, ∃ n : ℤ, |n| ≤ 2 ^ 32 ∧ e.amount = F.num (n : ℚ))
    (hlen : es.length ≤ 2 ^ 21) :
    calculate_total es = F.num (((es.map Expense.amount).map toQ).sum) ∧
    calculate_total es = calculate_total es' := by
  have key : ∀ l : List Expense,
      (∀ e ∈ l, ∃ n : ℤ, |n| ≤ 2 ^ 32 ∧ e.amount = F.num (n : ℚ)) →
      l.length ≤ 2 ^ 21 →
      calculate_total l = F.num (((l.map Expense.amount).map toQ).sum) := by
    intro l hl hlenl
    have hq : ∀ x ∈ l.map Expense.amount, ∃ q : ℚ, x = F.num q ∧ |q| ≤ 2 ^ 32 := by
      intro x hx
      obtain ⟨e, he, rfl⟩ := List.mem_map.mp hx
      obtain ⟨n, hn, hamt⟩ := hl e he
      refine ⟨(n : ℚ), hamt, ?_⟩
      rw [← Int.cast_abs]
      exact_mod_cast le_trans (le_refl _) (by exact_mod_cast hn)
    have hb : |(0 : ℚ)| + 2 ^ 32 * (l.map Expense.amount).length ≤ MAXF := by
      rw [abs_zero, zero_add, List.length_map]
      have h1 : (l.length : ℚ) ≤ 2 ^ 21 := by exact_mod_cast hlenl
      have h2 : (2 : ℚ) ^ 32 * l.length ≤ 2 ^ 32 * 2 ^ 21 := by
        have : (0 : ℚ) < 2 ^ 32 := by positivity
        exact mul_le_mul_of_nonneg_left h1 (le_of_lt this)
      refine le_trans h2 ?_
      rw [MAXF]
      norm_num
    have := foldl_add_exact (l.map Expense.amount) 0 hq hb
    rw [calculate_total, this, zero_add]
  have hint2 : ∀ e ∈ es', ∃ n : ℤ, |n| ≤ 2 ^ 32 ∧ e.amount = F.num (n : ℚ) :=
    fun e he => hint e (h.symm.subset he)
  have hlen2 : es'.length ≤ 2 ^ 21 := h.length_eq ▸ hlen
  refine ⟨key es hint hlen, ?_⟩
  rw [key es hint hlen, key es' hint2 hlen2]
  have : (((es.map Expense.amount).map toQ) : List ℚ).Perm
      ((es'.map Expense.amount).map toQ) := (h.map Expense.amount).map toQ
  rw [this.sum_eq]

/-- C2 witness: the amended statement evaluated on a concrete
two-element collection of small integer amounts and its transposition. -/
theorem C2_total_sum_perm_witness :
    calculate_total [exA, exC] = F.num ((([exA, exC].map Expense.amount).map toQ).sum) ∧
    calculate_total [exA, exC] = calculate_total [exC, exA] :=
  C2_total_sum_perm [exA, exC] [exC, exA] (List.Perm.swap exC exA [])
    (by
      intro e he
      rcases List.mem_cons.mp he with rfl | he
      · exact ⟨5, by norm_num, by norm_num [exA]⟩
      · rcases List.mem_cons.mp he with rfl | he
        · exact ⟨3, by norm_num, by norm_num [exC]⟩
        · exact absurd he (List.not_mem_nil e))
    (by norm_num)

/-- C3: on a non-empty collection of orderable (non-NaN) amounts,
`find_min` returns an expense `r` whose amount bounds every amount from
below and such that every expense inserted before `r` has a strictly
greater amount: among equal minima the earliest-inserted one wins. -/
theorem C3_find_min_tie_first (es : List Expense) (hne : es ≠ []) (hno : NoNan es) :
    ∃ r l₁ l₂, find_min es = some r ∧ es = l₁ ++ r :: l₂ ∧
      (∀ x ∈ es, fle r.amount x.amount) ∧ ∀ x ∈ l₁, flt r.amount x.amount := by
  match es, hne with
  | e :: es', _ =>
    have he : e.amount ≠ F.nan := hno e (List.mem_cons_self e es')
    have hes' : NoNan es' := fun y hy => hno y (List.mem_cons_of_mem e hy)
    obtain ⟨h1, h2, h3, h4⟩ := foldl_minStep_spec es' e he hes'
    refine ⟨es'.foldl minStep e, ?_⟩
    rcases h4 with heq | ⟨l₁, l₂, hdec, hre, hl₁⟩
    · refine ⟨[], es', rfl, by rw [heq, List.nil_append], ?_, ?_⟩
      · intro y hy
        rcases List.mem_cons.mp hy with rfl | hy
        · rw [heq]; exact fle_refl he
        · exact h3 y hy
      · intro y hy
        exact absurd hy (List.not_mem_nil y)
    · refine ⟨e :: l₁, l₂, rfl, by rw [List.cons_append, ← hdec], ?_, ?_⟩
      · intro y hy
        rcases List.mem_cons.mp hy with rfl | hy
        · exact h2
        · exact h3 y hy
      · intro y hy
        rcases List.mem_cons.mp hy with rfl | hy
        · exact hre
        · exact hl₁ y hy

/-- C3 witness: the statement evaluated on the concrete collection
`[exA, exC, exD]`, where `exC` and `exD` tie for the least amount and
the earlier-inserted `exC` is returned. -/
theorem C3_find_min_tie_first_witness :
    ∃ r l₁ l₂, find_min [exA, exC, exD] = some r ∧ [exA, exC, exD] = l₁ ++ r :: l₂ ∧
      (∀ x ∈ [exA, exC, exD], fle r.amount x.amount) ∧
      ∀ x ∈ l₁, flt r.amount x.amount :=
  C3_find_min_tie_first [exA, exC, exD] (by simp) (by decide)

/-- C4 counterexample: with a NaN amount in the middle, `find_max` returns
the amount-1 expense, whose amount is not `>=` the amount 5 also present:
the returned amount fails to bound every element from above. -/
theorem C4_counterexample :
    find_max [exA, exNan, exOne] = some exOne ∧
    fge exOne.amount exA.amount = false := by
  decide

/-- C4 (amended): on a non-empty collection of orderable (non-NaN)
amounts, the amount returned by `find_max` is an upper bound and the
amount returned by `find_min` a lower bound of every amount present. -/
theorem C4_max_ge_min_le (es : List Expense) (hne : es ≠ []) (hno : NoNan es) :
    ∃ emax emin, find_max es = some emax ∧ find_min es = some emin ∧
      ∀ x ∈ es, fle x.amount emax.amount ∧ fle emin.amount x.amount := by
  match es, hne with
  | e :: es', _ =>
    have he : e.amount ≠ F.nan := hno e (List.mem_cons_self e es')
    have hes' : NoNan es' := fun y hy => hno y (List.mem_cons_of_mem e hy)
    obtain ⟨_, hmax2, hmax3, _⟩ := foldl_maxStep_spec es' e he hes'
    obtain ⟨_, hmin2, hmin3, _⟩ := foldl_minStep_spec es' e he hes'
    refine ⟨es'.foldl maxStep e, es'.foldl minStep e, rfl, rfl, ?_⟩
    intro y hy
    rcases List.mem_cons.mp hy with rfl | hy
    · exact ⟨hmax2, hmin2⟩
    · exact ⟨hmax3 y hy, hmin3 y hy⟩

/-- C4 witness: the amended statement evaluated on `[exA, exB, exC]`. -/
theorem C4_max_ge_min_le_witness :
    ∃ emax emin, find_max [exA, exB, exC] = some emax ∧
      find_min [exA, exB, exC] = some emin ∧
      ∀ x ∈ [exA, exB, exC], fle x.amount emax.amount ∧ fle emin.amount x.amount :=
  C4_max_ge_min_le [exA, exB, exC] (by simp) (by decide)

/-- C5: on the empty collection `find_max` and `find_min` return the
explicit absent value `none`; in this embedding every operation is a
total function, so no input can make one fail. -/
theorem C5_empty_absent :
    find_max ([] : List Expense) = none ∧ find_min ([] : List Expense) = none :=
  ⟨rfl, rfl⟩

/-- C6: the comparator inside `find_max`/`find_min` maps every
non-orderable pair (`partial_cmp` returning `none`) to `Equal`, and both
functions yield a value on every non-empty collection, NaN and
infinite amounts included. -/
theorem C6_total_nan_safe :
    (∀ a b : Expense, pcmp a.amount b.amount = none → fcmp a b = Ordering.eq) ∧
    (∀ es : List Expense, es ≠ [] → (find_max es).isSome ∧ (find_min es).isSome) := by
  constructor
  · intro a b h
    simp [fcmp, h]
  · intro es hne
    match es, hne with
    | e :: es', _ => exact ⟨rfl, rfl⟩

/-- C6 witness: the statement evaluated on a NaN and an infinite amount. -/
theorem C6_total_nan_safe_witness :
    fcmp exNan exInf = Ordering.eq ∧
    (find_max [exNan, exInf]).isSome ∧ (find_min [exNan, exInf]).isSome :=
  ⟨C6_total_nan_safe.1 exNan exInf rfl,
    C6_total_nan_safe.2 [exNan, exInf] (by simp)⟩

/-- C7: `total_by_category` coincides with `calculate_total` composed
with `get_by_category`, and `count_by_category` with its length. -/
theorem C7_category_compose (es : List Expense) (c : String) :
    total_by_category es c = calculate_total (get_by_category es c) ∧
    count_by_category es c = (get_by_category es c).length :=
  ⟨rfl, rfl⟩

/-- C8: both filters return exactly the subsequence of elements whose key
field equals the argument under exact string equality: the result is a
sublist (original relative order), membership is equivalent to matching,
its length counts all matching positions, and it is empty when nothing
matches. -/
theorem C8_filters_exact (es : List Expense) (c d : String) :
    (get_by_category es c).Sublist es ∧
    (∀ e, e ∈ get_by_category es c ↔ e ∈ es ∧ e.category = c) ∧
    (get_by_category es c).length = es.countP (fun e => e.category = c) ∧
    ((∀ e ∈ es, e.category ≠ c) → get_by_category es c = []) ∧
    (view_expenses_by_date es d).Sublist es ∧
    (∀ e, e ∈ view_expenses_by_date es d ↔ e ∈ es ∧ e.date = d) ∧
    (view_expenses_by_date es d).length = es.countP (fun e => e.date = d) ∧
    ((∀ e ∈ es, e.date ≠ d) → view_expenses_by_date es d = []) := by
  refine ⟨List.filter_sublist es, ?_, ?_, ?_, List.filter_sublist es, ?_, ?_, ?_⟩
  · intro e
    simp [get_by_category, List.mem_filter]
  · rw [get_by_category, ← List.countP_eq_length_filter]
  · intro h
    exact List.filter_eq_nil_iff.mpr (by simpa using h)
  · intro e
    simp [view_expenses_by_date, List.mem_filter]
  · rw [view_expenses_by_date, ← List.countP_eq_length_filter]
  · intro h
    exact List.filter_eq_nil_iff.mpr (by simpa using h)

/-- C8 witness: the statement evaluated on a concrete collection, a
matching category and a matching date. -/
theorem C8_filters_exact_witness :
    (get_by_category [exA, exB, exC] "food").Sublist [exA, exB, exC] ∧
    (∀ e, e ∈ get_by_category [exA, exB, exC] "food" ↔
      e ∈ [exA, exB, exC] ∧ e.category = "food") ∧
    (get_by_category [exA, exB, exC] "food").length =
      ([exA, exB, exC] : List Expense).countP (fun e => e.category = "food") ∧
    ((∀ e ∈ ([exA, exB, exC] : List Expense), e.category ≠ "food") →
      get_by_category [exA, exB, exC] "food" = []) ∧
    (view_expenses_by_date [exA, exB, exC] "2026-01-07").Sublist [exA, exB, exC] ∧
    (∀ e, e ∈ view_expenses_by_date [exA, exB, exC] "2026-01-07" ↔
      e ∈ [exA, exB, exC] ∧ e.date = "2026-01-07") ∧
    (view_expenses_by_date [exA, exB, exC] "2026-01-07").length =
      ([exA, exB, exC] : List Expense).countP (fun e => e.date = "2026-01-07") ∧
    ((∀ e ∈ ([exA, exB, exC] : List Expense), e.date ≠ "2026-01-07") →
      view_expenses_by_date [exA, exB, exC] "2026-01-07" = []) :=
  C8_filters_exact [exA, exB, exC] "food" "2026-01-07"

lemma addAll_go_length (args : List (F × String × String)) :
    ∀ es : List Expense,
      (args.foldl (fun es t => add_expense es t.1 t.2.1 t.2.2) es).length =
        es.length + args.length := by
  induction args with
  | nil => intro es; simp
  | cons t args ih =>
      intro es
      rw [List.foldl_cons, ih]
      simp [add_expense]
      omega

/-- C9: starting from the empty collection, N calls to `add_expense`
leave a collection of length exactly N, and each call appends exactly
the one expense built verbatim from its arguments. -/
theorem C9_add_append_length (args : List (F × String × String)) :
    (addAll args).length = args.length ∧
    ∀ (es : List Expense) (a : F) (c d : String),
      add_expense es a c d = es ++ [Expense.new a c d] ∧
      (add_expense es a c d).length = es.length + 1 := by
  refine ⟨?_, ?_⟩
  · rw [addAll, addAll_go_length]
    simp
  · intro es a c d
    exact ⟨rfl, by simp [add_expense]⟩

/-- C10: on every single-element collection, whatever the amount (NaN,
infinite, zero or negative included), `find_max` and `find_min` both
return that element. -/
theorem C10_singleton (e : Expense) :
    find_max [e] = some e ∧ find_min [e] = some e :=
  ⟨rfl, rfl⟩
